import Mathlib

/-!
Verification of the mdbook-rss-feed core library (`src/lib.rs`).

Rust strings are modelled as `List Char` (sequences of Unicode scalar
values).  Byte-level operations of the source (`utf8_prefix`,
`strip_leading_boilerplate`) are modelled by computing UTF-8 byte lengths
of the characters explicitly; a Rust string slice `&s[..i]` or `&s[i..]`
at a byte index that is not a character boundary panics, which is
modelled by returning `none`.
-/

namespace MdbookRssFeed

/-- Number of bytes of the UTF-8 encoding of one Unicode scalar value. -/
def utf8Len (c : Char) : Nat :=
  if c.toNat < 0x80 then 1
  else if c.toNat < 0x800 then 2
  else if c.toNat < 0x10000 then 3
  else 4

/-- Total UTF-8 byte length of a string, as Rust's `str::len`. -/
def byteLen (s : List Char) : Nat :=
  (s.map utf8Len).sum

/-- The Unicode `White_Space` property, as used by Rust's `str::trim`. -/
def rustIsWhitespace (c : Char) : Bool :=
  decide ((9 ≤ c.toNat ∧ c.toNat ≤ 13) ∨ c.toNat = 32 ∨ c.toNat = 0x85 ∨
    c.toNat = 0xA0 ∨ c.toNat = 0x1680 ∨ (0x2000 ≤ c.toNat ∧ c.toNat ≤ 0x200A) ∨
    c.toNat = 0x2028 ∨ c.toNat = 0x2029 ∨ c.toNat = 0x202F ∨
    c.toNat = 0x205F ∨ c.toNat = 0x3000)

/-- Rust `str::trim_start`. -/
def rustTrimStart (s : List Char) : List Char :=
  s.dropWhile rustIsWhitespace

/-- Rust `str::trim` (strip leading and trailing whitespace). -/
def rustTrim (s : List Char) : List Char :=
  ((s.dropWhile rustIsWhitespace).reverse.dropWhile rustIsWhitespace).reverse

/-- Split a string at every newline character, keeping all pieces
(including empty ones); auxiliary for the model of Rust `str::lines`. -/
def splitOnNl : List Char → List (List Char)
  | [] => [[]]
  | '\n' :: rest => [] :: splitOnNl rest
  | c :: rest =>
    match splitOnNl rest with
    | [] => [[c]]
    | h :: t => (c :: h) :: t

/-- Strip one trailing carriage return, as Rust `str::lines` does for
lines terminated by `\r\n`. -/
def stripCr (l : List Char) : List Char :=
  if l.getLast? = some '\r' then l.dropLast else l

/-- Rust `str::lines`: split at `\n`, dropping a final empty segment and
stripping a `\r` from every `\n`-terminated line. -/
def rustLines (s : List Char) : List (List Char) :=
  let parts := splitOnNl s
  let init := parts.dropLast.map stripCr
  match parts.getLast? with
  | some [] => init
  | some l => init ++ [l]
  | none => init

/-- Rust `str::find` with a string pattern: byte index (here: character
index, the patterns used are ASCII) of the first occurrence. -/
def findSub (pat : List Char) : List Char → Option Nat
  | [] => if pat = [] then some 0 else none
  | c :: rest =>
    if pat.isPrefixOf (c :: rest) then some 0
    else (findSub pat rest).map (· + 1)

/-- Rust `str::replace` with a non-empty pattern `p :: ps`: scan left to
right, replacing each non-overlapping occurrence with `rep`. -/
def rustReplaceNE (p : Char) (ps rep : List Char) : List Char → List Char
  | [] => []
  | c :: rest =>
    if (p :: ps).isPrefixOf (c :: rest) then
      rep ++ rustReplaceNE p ps rep (rest.drop ps.length)
    else
      c :: rustReplaceNE p ps rep rest
termination_by s => s.length
decreasing_by
  · simp only [List.length_cons]
    have := List.length_drop ps.length rest
    omega
  · simp

/-- Fuel-based companion of `rustReplaceNE`: structurally recursive and
hence kernel-reducible; proved equal to `rustReplaceNE` for sufficient
fuel (`rustReplaceNE_eq_fuel`), which lets concrete instances be
evaluated by `decide`. -/
def rustReplaceFuel (p : Char) (ps rep : List Char) : Nat → List Char → List Char
  | _, [] => []
  | 0, s => s
  | fuel + 1, c :: rest =>
    if (p :: ps).isPrefixOf (c :: rest) then
      rep ++ rustReplaceFuel p ps rep fuel (rest.drop ps.length)
    else
      c :: rustReplaceFuel p ps rep fuel rest

/-- Rust `str::replace`; the source only uses non-empty patterns, the
empty pattern case (identity here) is never exercised. -/
def rustReplace (pat rep s : List Char) : List Char :=
  match pat with
  | [] => s
  | p :: ps => rustReplaceNE p ps rep s

/-- `rustReplace` computed through `rustReplaceFuel` with fuel
`s.length`; proved equal to `rustReplace` (`rustReplace_eq_replaceC`),
used to evaluate concrete instances. -/
def replaceC (pat rep s : List Char) : List Char :=
  match pat with
  | [] => s
  | p :: ps => rustReplaceFuel p ps rep s.length s

/-- Rust `str::trim_end_matches('/')`: remove all trailing slashes. -/
def trimEndSlashes (s : List Char) : List Char :=
  (s.reverse.dropWhile (fun c => c = '/')).reverse

/-- Rust string slice `&s[..b]` at byte index `b`: the prefix of the
characters whose encodings occupy the first `b` bytes, or `none`
(a panic) when `b` is not a character boundary. -/
def slicePrefixBytes : List Char → Nat → Option (List Char)
  | _, 0 => some []
  | [], _ + 1 => none
  | c :: rest, b + 1 =>
    if utf8Len c ≤ b + 1 then
      (slicePrefixBytes rest (b + 1 - utf8Len c)).map (c :: ·)
    else
      none

/-- Rust string slice `&s[b..]` at byte index `b`: drop the characters
occupying the first `b` bytes, or `none` (a panic) when `b` is not a
character boundary. -/
def sliceDropBytes : List Char → Nat → Option (List Char)
  | s, 0 => some s
  | [], _ + 1 => none
  | c :: rest, b + 1 =>
    if utf8Len c ≤ b + 1 then
      sliceDropBytes rest (b + 1 - utf8Len c)
    else
      none

/-- The `for (ch_idx, (byte_idx, _)) in s.char_indices().enumerate()`
loop of `utf8_prefix` (src/lib.rs lines 278-284): returns the final value
of `last_byte`.  On `ch_idx == max_chars` the loop breaks with
`last_byte = byte_idx`; otherwise it sets `last_byte = byte_idx + 1`
(one past the *first byte* of the character, not past its encoding). -/
def lastByteLoop (maxChars : Nat) : List Char → Nat → Nat → Nat → Nat
  | [], _, _, lastByte => lastByte
  | c :: rest, chIdx, byteIdx, _ =>
    if chIdx = maxChars then byteIdx
    else lastByteLoop maxChars rest (chIdx + 1) (byteIdx + utf8Len c) (byteIdx + 1)

/-- `utf8_prefix` (src/lib.rs lines 271-291).  Models the byte-index
computation of the source exactly; the final `&s[..last_byte]` is a
panic (`none`) when `last_byte` is not a character boundary. -/
def utf8Take (s : List Char) (maxChars : Nat) : Option (List Char) :=
  if maxChars = 0 then some []
  else
    let lastByte := lastByteLoop maxChars s 0 0 0
    if lastByte = 0 ∨ byteLen s ≤ lastByte then some s
    else slicePrefixBytes s lastByte

/-- Parsed YAML frontmatter (`FrontMatter`, src/lib.rs lines 89-98).
Timestamps are represented by an integer key that preserves
chronological order. -/
structure FrontMatter where
  title : List Char
  date : Option Int
  author : Option (List Char)
  description : Option (List Char)
deriving DecidableEq, Repr

/-- A chapter plus its parsed metadata (`Article`, src/lib.rs 105-110). -/
structure Article where
  fm : FrontMatter
  content : List Char
  path : List Char
deriving DecidableEq, Repr

/-- The front-matter extraction loop of `parse_markdown_file`
(src/lib.rs lines 121-140): iterate over the lines; a line trimming to
`---` toggles into YAML mode or breaks out of the loop; lines seen in
YAML mode are accumulated (with a newline each); returns the accumulated
YAML and the lines remaining after the loop. -/
def fmLoop : List (List Char) → Bool → List Char → List Char × List (List Char)
  | [], _, yaml => (yaml, [])
  | line :: rest, inYaml, yaml =>
    if rustTrim line = "---".toList then
      if inYaml then (yaml, rest)
      else fmLoop rest true yaml
    else if inYaml then fmLoop rest inYaml (yaml ++ line ++ ['\n'])
    else fmLoop rest inYaml yaml

/-- Lines 121-143 of src/lib.rs: split a file's text into the raw YAML
block and the body.  The body is the lines remaining after the loop,
joined with `\n`, plus one final `\n`.  Lines consumed by the loop that
are neither a delimiter nor inside the YAML block are dropped. -/
def splitFrontMatter (text : List Char) : List Char × List Char :=
  let r := fmLoop (rustLines text) false []
  (r.1, (List.intercalate ['\n'] r.2) ++ ['\n'])

/-- `parse_markdown_file` (src/lib.rs lines 118-175), with the
filesystem inputs made explicit: `fileStem` is
`path.file_stem().unwrap().to_string_lossy()`, `fallbackDate` the file's
modification time, `relPath` the root-relative path, and `yamlParse` the
external `serde_yaml::from_str::<FrontMatter>` deserializer (`none`
models a parse error). -/
def parse_markdown_file (yamlParse : List Char → Option FrontMatter)
    (fileStem : List Char) (fallbackDate : Option Int) (relPath : List Char)
    (text : List Char) : Article :=
  let p := splitFrontMatter text
  let fallbackFm : FrontMatter :=
    { title := fileStem, date := fallbackDate, author := none,
      description := some p.2 }
  let fm :=
    if rustTrim p.1 ≠ [] then (yamlParse p.1).getD fallbackFm
    else fallbackFm
  { fm := fm, content := p.2, path := relPath }

/-- Split one YAML line into trimmed key and trimmed raw value at the
first colon; auxiliary for the serde_yaml model. -/
def yamlLineKV (line : List Char) : Option (List Char × List Char) :=
  match findSub [':'] line with
  | none => none
  | some i => some (rustTrim (line.take i), rustTrim (line.drop (i + 1)))

/-- Remove one pair of surrounding double quotes from a YAML scalar;
auxiliary for the serde_yaml model. -/
def unquote (v : List Char) : List Char :=
  match v with
  | '"' :: rest =>
    if rest.getLast? = some '"' then rest.dropLast else v
  | _ => v

/-- Digits of a `YYYY-MM-DD` date read as the number `YYYYMMDD`;
auxiliary for the serde_yaml model. -/
def dateDigitsVal (l : List Char) : Int :=
  Int.ofNat (l.foldl (fun acc c => acc * 10 + (c.toNat - '0'.toNat)) 0)

/-- Modelled from the spec: the date parsing of `deserialize_date`
(src/lib.rs lines 62-80), which delegates to the external chrono
library.  A `YYYY-MM-DD` value becomes a key preserving chronological
order; RFC 3339 values are not modelled (treated as absent, which no
claim depends on); any other format yields an absent date. -/
def parseDateModel (v : List Char) : Option Int :=
  match v with
  | [y1, y2, y3, y4, '-', m1, m2, '-', d1, d2] =>
    if [y1, y2, y3, y4, m1, m2, d1, d2].all Char.isDigit then
      some (dateDigitsVal [y1, y2, y3, y4, m1, m2, d1, d2])
    else none
  | _ => none

/-- Look up the value of a key in a parsed key/value list; auxiliary for
the serde_yaml model. -/
def lookupKV (k : String) (kvs : List (List Char × List Char)) :
    Option (List Char) :=
  (kvs.find? (fun p => p.1 == k.toList)).map (·.2)

/-- Modelled from the spec: `serde_yaml::from_str::<FrontMatter>`, the
external YAML deserializer (serde_yaml is a dependency, not part of this
repository's sources).  It parses the block as key/value lines; `title`
is required and copied verbatim (a quoted empty scalar yields the empty
title); `date` must be present because its custom deserializer disables
serde's implicit missing-`Option`-becomes-`None` rule, and its value is
parsed by `parseDateModel`; `author` and `description` are optional.
Any line without a colon is a deserialization error (`none`). -/
def serdeYamlFM (yaml : List Char) : Option FrontMatter :=
  let lines := (rustLines yaml).filter (fun l => rustTrim l ≠ [])
  match lines.mapM yamlLineKV with
  | none => none
  | some kvs =>
    match lookupKV "title" kvs, lookupKV "date" kvs with
    | some t, some dv =>
      some { title := unquote t, date := parseDateModel (unquote dv),
             author := (lookupKV "author" kvs).map unquote,
             description := (lookupKV "description" kvs).map unquote }
    | _, _ => none

/-- Ordering on `Option DateTime` keys used by `sort_by_key`: Rust's
derived `Ord` on `Option` puts `None` below every `Some`. -/
def dateLe (a b : Option Int) : Bool :=
  match a, b with
  | none, _ => true
  | some _, none => false
  | some x, some y => decide (x ≤ y)

/-- Insert an article into an already sorted list, after all entries
with a key less than or equal to its own (the insertion realizing a
stable sort). -/
def insertByDate (x : Article) : List Article → List Article
  | [] => [x]
  | y :: ys =>
    if dateLe y.fm.date x.fm.date then y :: insertByDate x ys
    else x :: y :: ys

/-- Stable sort of articles by `fm.date` ascending.  Rust's
`sort_by_key` (src/lib.rs line 215) is a stable sort, and every stable
sort by the same key computes the same list; insertion after all
less-or-equal keys realizes it. -/
def sortByDate (l : List Article) : List Article :=
  l.foldl (fun acc x => insertByDate x acc) []

/-- The ordering step of `collect_articles` (src/lib.rs lines 214-216):
stable sort by `fm.date` ascending, then reverse the whole list. -/
def sort_articles (l : List Article) : List Article :=
  (sortByDate l).reverse

/-- `MIN_BODY_PREVIEW_CHARS` (src/lib.rs line 54). -/
def MIN_BODY_PREVIEW_CHARS : Nat := 80

/-- The preview source selection of `build_feed` (src/lib.rs lines
538-546): the trimmed body when it has at least
`MIN_BODY_PREVIEW_CHARS` characters or no description override exists,
otherwise the description override. -/
def chooseSource (content : List Char) (descr : Option (List Char)) :
    List Char :=
  let trimmed := rustTrim content
  if MIN_BODY_PREVIEW_CHARS ≤ trimmed.length ∨ descr.isNone then trimmed
  else descr.getD trimmed

/-- The line loop of `strip_leading_boilerplate` (src/lib.rs lines
240-261): returns the final value of `byte_idx` (`0` when the loop never
breaks).  Line byte lengths are counted as `line.len() + 1`, assuming
`\n`-separated input. -/
def stripIdxLoop : List (List Char) → Nat → Bool → Nat → Nat
  | [], _, _, _ => 0
  | line :: rest, i, seenHeading, accBytes =>
    let lineLen := byteLen line + 1
    if i = 0 ∧ rustTrim line = [] then
      stripIdxLoop rest (i + 1) seenHeading (accBytes + lineLen)
    else
      let seen := seenHeading ∨ (rustTrimStart line).head? = some '#'
      if seen ∧ rustTrim line = [] then accBytes + lineLen
      else stripIdxLoop rest (i + 1) seen (accBytes + lineLen)

/-- `strip_leading_boilerplate` (src/lib.rs lines 235-268): when a blank
line following a heading is found, return the suffix of the text from
the computed byte index (clamped to the length); `none` models the panic
of slicing at a non-boundary byte index. -/
def strip_leading_boilerplate (md : List Char) : Option (List Char) :=
  let byteIdx := stripIdxLoop (rustLines md) 0 false 0
  if byteIdx = 0 then some md
  else sliceDropBytes md (min byteIdx (byteLen md))

/-- The paragraph-collecting loop of `html_first_paragraphs`
(src/lib.rs lines 304-323): repeatedly locate the next `<p` and the
following `</p>`, appending each whole paragraph to `out`.  The loop
runs at most `max_paragraphs` times, which serves as the structural
fuel. -/
def hfpLoop (html : List Char) : Nat → Nat → List Char → List Char
  | 0, _, out => out
  | fuel + 1, start, out =>
    match findSub "<p".toList (html.drop start) with
    | none => out
    | some rel =>
      let pStart := start + rel
      match findSub "</p>".toList (html.drop pStart) with
      | none => out
      | some relClose =>
        let close := pStart + relClose + 4
        let para := (html.drop pStart).take (close - pStart)
        hfpLoop html fuel close (out ++ para)

/-- `html_first_paragraphs` (src/lib.rs lines 299-336): collect at most
`maxParagraphs` paragraph blocks, fall back to the whole HTML when none
is found, and cap the result at `maxChars` characters. -/
def html_first_paragraphs (html : List Char) (maxParagraphs maxChars : Nat) :
    List Char :=
  let out := hfpLoop html maxParagraphs 0 []
  let out2 := if out = [] then html else out
  if maxChars < out2.length then out2.take maxChars else out2

/-- The preview-mode Markdown slice of `build_feed` (src/lib.rs lines
536-554): select the source, strip leading boilerplate, then take a
4000-character UTF-8 prefix.  `none` models the panics of the two
byte-slicing helpers. -/
def previewMdSlice (content : List Char) (descr : Option (List Char)) :
    Option (List Char) :=
  match strip_leading_boilerplate (chooseSource content descr) with
  | none => none
  | some stripped => utf8Take stripped 4000

/-- The non-full-preview item description of `build_feed` (src/lib.rs
lines 556-564): render the Markdown slice to HTML with the external
pulldown-cmark renderer (`render`), then keep the first 3 paragraphs
capped at 800 characters. -/
def itemPreview (render : List Char → List Char) (content : List Char)
    (descr : Option (List Char)) : Option (List Char) :=
  (previewMdSlice content descr).map
    (fun md => html_first_paragraphs (render md) 3 800)

/-- The `.html` path rewriting of `build_feed` (src/lib.rs lines
515-520): normalize backslashes, replace every occurrence of `.md` with
`.html`, then every `/README.html` with `/index.html`. -/
def htmlPath (p : List Char) : List Char :=
  rustReplace "/README.html".toList "/index.html".toList
    (rustReplace ".md".toList ".html".toList
      (rustReplace ['\\'] ['/'] p))

/-- The item link of `build_feed` (src/lib.rs lines 510 and 522):
`format!("{base_url}/{html_path}")` with the site URL's trailing slashes
stripped. -/
def feedLink (siteUrl p : List Char) : List Char :=
  trimEndSlashes siteUrl ++ '/' :: htmlPath p

/-- An RSS GUID (`rss::Guid`): value plus permalink flag. -/
structure RssGuid where
  value : List Char
  permalink : Bool
deriving DecidableEq, Repr

/-- An RSS 2.0 item, with the fields `build_feed` populates. -/
structure RssItem where
  title : Option (List Char)
  link : Option (List Char)
  description : Option (List Char)
  guid : Option RssGuid
  pubDate : Option (List Char)
  author : Option (List Char)
deriving DecidableEq, Repr

/-- An RSS 2.0 channel, with the fields `build_feed` populates. -/
structure Channel where
  title : List Char
  link : List Char
  description : List Char
  items : List RssItem
  generator : Option (List Char)
deriving DecidableEq, Repr

/-- One generated feed file (`FeedPage`, src/lib.rs lines 342-345). -/
structure FeedPage where
  filename : List Char
  channel : Channel
deriving DecidableEq, Repr

/-- The per-article item construction of `build_feed` (src/lib.rs lines
512-586), with the external renderers passed explicitly: `render` is
pulldown-cmark's Markdown-to-HTML conversion and `fmtDate` chrono's
`to_rfc2822`.  `none` models a panic in the preview pipeline. -/
def buildItem (render : List Char → List Char) (fmtDate : Int → List Char)
    (fullPreview : Bool) (siteUrl : List Char) (a : Article) :
    Option RssItem :=
  let link := feedLink siteUrl a.path
  let preview? :=
    if fullPreview then some (render a.content)
    else itemPreview render a.content a.fm.description
  preview?.map (fun preview =>
    { title := some a.fm.title, link := some link,
      description := some preview,
      guid := some { value := link, permalink := true },
      pubDate := a.fm.date.map fmtDate, author := a.fm.author })

/-- The channel constructor of `build_feed` (src/lib.rs lines 589-598). -/
def buildChannelForSlice (title siteUrl descr : List Char)
    (slice : List RssItem) : Channel :=
  { title := title, link := trimEndSlashes siteUrl ++ ['/'],
    description := descr, items := slice,
    generator := some "mdbook-rss-feed 1.0.0".toList }

/-- Rust `usize::div_ceil` for a positive divisor. -/
def divCeil (n p : Nat) : Nat := (n + p - 1) / p

/-- The pagination of `build_feed` (src/lib.rs lines 600-628): one
`rss.xml` page when pagination is off, `max_items` is zero or the items
fit; otherwise `div_ceil` pages of `max_items` items, named `rss.xml`,
`rss2.xml`, `rss3.xml`, ... -/
def build_feed_pages (title siteUrl descr : List Char) (items : List RssItem)
    (maxItems : Nat) (paginated : Bool) : List FeedPage :=
  if paginated = false ∨ maxItems = 0 ∨ items.length ≤ maxItems then
    [{ filename := "rss.xml".toList,
       channel := buildChannelForSlice title siteUrl descr items }]
  else
    (List.range (divCeil items.length maxItems)).map (fun pageIdx =>
      let start := pageIdx * maxItems
      let slice := (items.drop start).take maxItems
      let filename :=
        if pageIdx = 0 then "rss.xml".toList
        else "rss".toList ++ Nat.toDigits 10 (pageIdx + 1) ++ ".xml".toList
      { filename := filename,
        channel := buildChannelForSlice title siteUrl descr slice })

/-- A JSON Feed 1.1 item (src/lib.rs lines 32-45); the `author` field
holds the name wrapped by the source into `{"name": ...}`. -/
structure JsonFeedItem where
  id : List Char
  url : Option (List Char)
  title : Option (List Char)
  content_html : Option (List Char)
  date_published : Option (List Char)
  author : Option (List Char)
deriving DecidableEq, Repr

/-- A JSON Feed 1.1 document (src/lib.rs lines 17-30). -/
structure JsonFeed where
  version : List Char
  title : List Char
  home_page_url : Option (List Char)
  feed_url : Option (List Char)
  description : Option (List Char)
  next_url : Option (List Char)
  items : List JsonFeedItem
deriving DecidableEq, Repr

/-- `rss_to_json_feed` (src/lib.rs lines 359-405).  `reDate` models the
external chrono round trip `parse_from_rfc2822(..).ok().map(to_rfc3339)`
applied to a publish date. -/
def rss_to_json_feed (reDate : List Char → Option (List Char))
    (channel : Channel) (feedUrl nextUrl : Option (List Char)) : JsonFeed :=
  let items := channel.items.map (fun item =>
    let id := ((item.guid.map (·.value)).orElse (fun _ => item.link)).getD
      (item.title.getD [])
    { id := id, url := item.link, title := item.title,
      content_html := item.description,
      date_published := item.pubDate.bind reDate,
      author := item.author })
  { version := "https://jsonfeed.org/version/1.1".toList,
    title := channel.title, home_page_url := some channel.link,
    feed_url := feedUrl, description := some channel.description,
    next_url := nextUrl, items := items }

/-- The sort relation realized by `sort_by_key(|a| a.fm.date)`: article
`x` sorts at or before `y` when its date key is less or equal. -/
def artLe (x y : Article) : Prop := dateLe x.fm.date y.fm.date = true

/-- Whether an article lacks a date. -/
def isDateless (a : Article) : Bool := a.fm.date.isNone

/-- An RSS item with every field absent, used by concrete witnesses. -/
def emptyItem : RssItem :=
  { title := none, link := none, description := none, guid := none,
    pubDate := none, author := none }

/-- A dateless article used by concrete counterexamples. -/
def artNoDateA : Article :=
  { fm := { title := "a".toList, date := none, author := none,
            description := none },
    content := [], path := "a.md".toList }

/-- A second dateless article used by concrete counterexamples. -/
def artNoDateB : Article :=
  { fm := { title := "b".toList, date := none, author := none,
            description := none },
    content := [], path := "b.md".toList }

/-! ### General helper lemmas -/

theorem rustReplaceNE_eq_fuel (p : Char) (ps rep : List Char) :
    ∀ (fuel : Nat) (s : List Char), s.length ≤ fuel →
      rustReplaceFuel p ps rep fuel s = rustReplaceNE p ps rep s := by
  intro fuel
  induction fuel using Nat.strong_induction_on with
  | _ f ih =>
    intro s hs
    match s with
    | [] => cases f <;> simp [rustReplaceFuel, rustReplaceNE]
    | c :: rest =>
      match f with
      | 0 => simp at hs
      | fu + 1 =>
        simp only [rustReplaceFuel, rustReplaceNE]
        by_cases hp : (p :: ps).isPrefixOf (c :: rest)
        · rw [if_pos hp, if_pos hp]
          congr 1
          apply ih fu (by omega)
          rw [List.length_drop]
          simp only [List.length_cons] at hs
          omega
        · rw [if_neg hp, if_neg hp]
          congr 1
          apply ih fu (by omega)
          simp only [List.length_cons] at hs
          omega

theorem rustReplace_eq_replaceC (pat rep s : List Char) :
    rustReplace pat rep s = replaceC pat rep s := by
  match pat with
  | [] => rfl
  | p :: ps =>
    simp only [rustReplace, replaceC]
    exact (rustReplaceNE_eq_fuel p ps rep s.length s (Nat.le_refl _)).symm

theorem utf8Len_pos (c : Char) : 0 < utf8Len c := by
  unfold utf8Len
  split
  · exact Nat.zero_lt_one
  · split
    · exact Nat.zero_lt_succ 1
    · split
      · exact Nat.zero_lt_succ 2
      · exact Nat.zero_lt_succ 3

theorem byteLen_nil : byteLen [] = 0 := rfl

theorem byteLen_cons (c : Char) (s : List Char) :
    byteLen (c :: s) = utf8Len c + byteLen s := by
  simp [byteLen]

theorem byteLen_append (a b : List Char) :
    byteLen (a ++ b) = byteLen a + byteLen b := by
  simp [byteLen]

theorem byteLen_pos (s : List Char) (h : s ≠ []) : 0 < byteLen s := by
  match s with
  | [] => exact absurd rfl h
  | c :: rest =>
    rw [byteLen_cons]
    have := utf8Len_pos c
    omega

theorem slicePrefixBytes_zero (s : List Char) :
    slicePrefixBytes s 0 = some [] := by
  cases s <;> rfl

theorem slicePrefixBytes_cons (c : Char) (rest : List Char) (b : Nat)
    (hb : b ≠ 0) :
    slicePrefixBytes (c :: rest) b =
      if utf8Len c ≤ b then
        (slicePrefixBytes rest (b - utf8Len c)).map (c :: ·)
      else none := by
  match b with
  | 0 => exact absurd rfl hb
  | b + 1 => simp [slicePrefixBytes]

theorem slicePrefixBytes_isPrefix (s : List Char) :
    ∀ (b : Nat) (r : List Char), slicePrefixBytes s b = some r → r <+: s := by
  induction s with
  | nil =>
    intro b r h
    match b with
    | 0 =>
      simp only [slicePrefixBytes, Option.some.injEq] at h
      simp [← h]
    | b + 1 => simp [slicePrefixBytes] at h
  | cons c rest ih =>
    intro b r h
    match b with
    | 0 =>
      simp only [slicePrefixBytes, Option.some.injEq] at h
      simp [← h]
    | b + 1 =>
      simp only [slicePrefixBytes] at h
      by_cases hc : utf8Len c ≤ b + 1
      · rw [if_pos hc, Option.map_eq_some'] at h
        obtain ⟨r', hr', hrr⟩ := h
        subst hrr
        obtain ⟨t, ht⟩ := ih _ r' hr'
        exact ⟨t, by simp [← ht]⟩
      · rw [if_neg hc] at h
        exact absurd h (by simp)

theorem slicePrefixBytes_take (s : List Char) :
    ∀ (k : Nat), slicePrefixBytes s (byteLen (s.take k)) = some (s.take k) := by
  induction s with
  | nil => intro k; simp [byteLen_nil, slicePrefixBytes]
  | cons c rest ih =>
    intro k
    match k with
    | 0 => simp [byteLen_nil, slicePrefixBytes]
    | k + 1 =>
      have hpos := utf8Len_pos c
      rw [List.take_succ_cons, byteLen_cons,
        slicePrefixBytes_cons _ _ _ (by omega)]
      rw [if_pos (by omega)]
      have heq : utf8Len c + byteLen (rest.take k) - utf8Len c
          = byteLen (rest.take k) := by omega
      rw [heq, ih k]
      rfl

theorem lastByteLoop_break (m : Nat) :
    ∀ (s : List Char) (i b lb : Nat), i ≤ m → m < i + s.length →
      lastByteLoop m s i b lb = b + byteLen (s.take (m - i)) := by
  intro s
  induction s with
  | nil => intro i b lb hi hm; simp at hm; omega
  | cons c rest ih =>
    intro i b lb hi hm
    simp only [lastByteLoop]
    by_cases him : i = m
    · rw [if_pos him]
      have : m - i = 0 := by omega
      rw [this]
      simp [byteLen_nil]
    · rw [if_neg him]
      have h1 : i + 1 ≤ m := by omega
      have h2 : m < (i + 1) + rest.length := by
        simp only [List.length_cons] at hm
        omega
      rw [ih (i + 1) (b + utf8Len c) (b + 1) h1 h2]
      have hmi : m - i = (m - (i + 1)) + 1 := by omega
      rw [hmi, List.take_succ_cons, byteLen_cons]
      omega

theorem lastByteLoop_exhaust (m : Nat) :
    ∀ (s : List Char) (i b lb : Nat), s ≠ [] → i + s.length ≤ m →
      lastByteLoop m s i b lb = b + byteLen s.dropLast + 1 := by
  intro s
  induction s with
  | nil => intro i b lb hs _; exact absurd rfl hs
  | cons c rest ih =>
    intro i b lb _ hm
    simp only [List.length_cons] at hm
    simp only [lastByteLoop]
    rw [if_neg (by omega)]
    match rest with
    | [] =>
      simp [lastByteLoop, byteLen_nil]
    | d :: rest' =>
      rw [ih (i + 1) (b + utf8Len c) (b + 1) (List.cons_ne_nil d rest')
        (by simp only [List.length_cons] at hm ⊢; omega)]
      have hdl : (c :: d :: rest').dropLast = c :: (d :: rest').dropLast := rfl
      rw [hdl, byteLen_cons]
      omega

theorem utf8Take_some_length_le (s : List Char) (m : Nat) (r : List Char)
    (h : utf8Take s m = some r) : r.length ≤ m := by
  unfold utf8Take at h
  by_cases hm : m = 0
  · rw [if_pos hm] at h
    simp only [Option.some.injEq] at h
    simp [← h]
  · rw [if_neg hm] at h
    by_cases hlen : s.length ≤ m
    · by_cases hcond : lastByteLoop m s 0 0 0 = 0 ∨
          byteLen s ≤ lastByteLoop m s 0 0 0
      · rw [if_pos hcond] at h
        simp only [Option.some.injEq] at h
        subst h
        exact hlen
      · rw [if_neg hcond] at h
        have hpre := slicePrefixBytes_isPrefix s _ r h
        exact le_trans hpre.length_le hlen
    · push_neg at hlen
      have hb := lastByteLoop_break m s 0 0 0 (Nat.zero_le m) (by omega)
      simp only [Nat.zero_add, Nat.sub_zero] at hb
      have htk : byteLen s = byteLen (s.take m) + byteLen (s.drop m) := by
        rw [← byteLen_append, List.take_append_drop]
      have hdrop_ne : s.drop m ≠ [] := by
        intro hcontra
        have := List.length_drop m s
        rw [hcontra] at this
        simp at this
        omega
      have hdpos := byteLen_pos _ hdrop_ne
      have htpos : 0 < byteLen (s.take m) := by
        apply byteLen_pos
        intro hcontra
        have hlt : (s.take m).length = 0 := by rw [hcontra]; rfl
        rw [List.length_take] at hlt
        omega
      rw [hb] at h
      rw [if_neg (by omega)] at h
      rw [slicePrefixBytes_take s m] at h
      simp only [Option.some.injEq] at h
      subst h
      simp only [List.length_take]
      omega

theorem html_first_paragraphs_length_le (html : List Char)
    (maxParagraphs maxChars : Nat) :
    (html_first_paragraphs html maxParagraphs maxChars).length ≤ maxChars := by
  simp only [html_first_paragraphs]
  generalize (if hfpLoop html maxParagraphs 0 [] = [] then html
    else hfpLoop html maxParagraphs 0 []) = out2
  split
  · simp only [List.length_take]
    omega
  · omega

/-! ### Claim C1 -/

/-- C1: the claim states that when no opening `---` delimiter is found,
the entire file text becomes the body with no line dropped.  The code
instead consumes (and discards) every line while searching for the
delimiter: on the file `"hello world"` the produced body is the single
newline `"\n"` — the whole text is lost — and the synthesized
description (used as preview fallback) is likewise `"\n"`. -/
theorem c1_no_delimiter_body_dropped :
    (parse_markdown_file serdeYamlFM "post".toList none "post.md".toList
      "hello world".toList).content = ['\n'] ∧
    (parse_markdown_file serdeYamlFM "post".toList none "post.md".toList
      "hello world".toList).content ≠ "hello world\n".toList ∧
    (parse_markdown_file serdeYamlFM "post".toList none "post.md".toList
      "hello world".toList).fm.description = some ['\n'] := by
  refine ⟨by decide, by decide, by decide⟩

/-! ### Claim C2 -/

/-- C2: the claim states that `utf8_prefix` never splits a multi-byte
code point and never panics, in particular on inputs whose final
character is multi-byte.  On the one-character input `"é"` (2 bytes)
with the 4000-character bound used by `build_feed`, the loop leaves
`last_byte = 1`, which lies strictly inside the 2-byte encoding, and the
final `&s[..1]` panics (modelled by `none`). -/
theorem c2_utf8Take_panics_on_trailing_multibyte :
    utf8Take "é".toList 4000 = none ∧ ("é".toList).length ≤ 4000 := by
  refine ⟨by decide, by decide⟩

/-! ### Claim C3 -/

/-- C3 counterexample: the claim states every constructed `FrontMatter`
has a non-empty title.  A YAML block `title: ""` with a present `date`
key deserializes successfully, and the empty title is copied verbatim
into the article. -/
theorem c3_counterexample_empty_yaml_title :
    (parse_markdown_file serdeYamlFM "post".toList none "post.md".toList
      "---\ntitle: \"\"\ndate: 2024-01-01\n---\nbody text\n".toList).fm.title
      = [] := by
  decide

/-- C3 amended: only the synthesized fallback `FrontMatter` — used when
the metadata block is absent or fails to deserialize — is guaranteed a
non-empty title, namely the file's base name (non-empty for any eligible
Markdown file); a successfully parsed YAML block copies its title
verbatim and may therefore be empty. -/
theorem c3_fallback_title_nonempty (yamlParse : List Char → Option FrontMatter)
    (fileStem : List Char) (fallbackDate : Option Int) (relPath text : List Char)
    (hstem : fileStem ≠ [])
    (h : rustTrim (splitFrontMatter text).1 = [] ∨
      yamlParse (splitFrontMatter text).1 = none) :
    (parse_markdown_file yamlParse fileStem fallbackDate relPath text).fm.title
      = fileStem ∧
    (parse_markdown_file yamlParse fileStem fallbackDate relPath text).fm.title
      ≠ [] := by
  have htitle :
      (parse_markdown_file yamlParse fileStem fallbackDate relPath
        text).fm.title = fileStem := by
    unfold parse_markdown_file
    rcases h with h | h
    · simp [h]
    · by_cases ht : rustTrim (splitFrontMatter text).1 = []
      · simp [ht]
      · simp [ht, h]
  exact ⟨htitle, by rw [htitle]; exact hstem⟩

/-- C3 witness: a file with no front matter gets the file stem `post`
as its (non-empty) title. -/
theorem c3_fallback_title_nonempty_witness :
    (parse_markdown_file serdeYamlFM "post".toList none "post.md".toList
      "hello world".toList).fm.title = "post".toList ∧
    (parse_markdown_file serdeYamlFM "post".toList none "post.md".toList
      "hello world".toList).fm.title ≠ [] :=
  c3_fallback_title_nonempty serdeYamlFM "post".toList none "post.md".toList
    "hello world".toList (by decide) (Or.inl (by decide))

/-! ### Claim C7 -/

/-- C7: with pagination disabled, or a zero maximum, or at most
`max_items` entries, `build_feed` emits exactly one page named
`rss.xml` holding all entries in order (also for zero entries). -/
theorem c7_single_page (title siteUrl descr : List Char)
    (items : List RssItem) (maxItems : Nat) (paginated : Bool)
    (h : paginated = false ∨ maxItems = 0 ∨ items.length ≤ maxItems) :
    build_feed_pages title siteUrl descr items maxItems paginated =
      [{ filename := "rss.xml".toList,
         channel := buildChannelForSlice title siteUrl descr items }] ∧
    (buildChannelForSlice title siteUrl descr items).items = items := by
  constructor
  · unfold build_feed_pages
    rw [if_pos h]
  · rfl

/-- C7 witness: zero entries with pagination enabled and `max_items = 2`
yield one `rss.xml` page with zero entries. -/
theorem c7_single_page_witness :
    build_feed_pages "t".toList "u".toList "d".toList [] 2 true =
      [{ filename := "rss.xml".toList,
         channel := buildChannelForSlice "t".toList "u".toList "d".toList [] }] ∧
    (buildChannelForSlice "t".toList "u".toList "d".toList []).items = [] :=
  c7_single_page "t".toList "u".toList "d".toList [] 2 true
    (Or.inr (Or.inr (by decide)))

/-! ### Claim C8 -/

/-- C8: in non-full-preview mode, whenever the Markdown slice is
produced it holds at most 4000 characters — and it is this slice that is
rendered to HTML (the bound is applied before rendering, third
conjunct) — and whenever the preview is produced it holds at most 800
Unicode scalar values, for every renderer behavior. -/
theorem c8_preview_bounds (render : List Char → List Char)
    (content : List Char) (descr : Option (List Char)) :
    (∀ md, previewMdSlice content descr = some md → md.length ≤ 4000) ∧
    (∀ pv, itemPreview render content descr = some pv → pv.length ≤ 800) ∧
    itemPreview render content descr =
      (previewMdSlice content descr).map
        (fun md => html_first_paragraphs (render md) 3 800) := by
  refine ⟨?_, ?_, rfl⟩
  · intro md hmd
    unfold previewMdSlice at hmd
    cases hstrip : strip_leading_boilerplate (chooseSource content descr) with
    | none => rw [hstrip] at hmd; exact absurd hmd (by simp)
    | some stripped =>
      rw [hstrip] at hmd
      exact utf8Take_some_length_le stripped 4000 md hmd
  · intro pv hpv
    unfold itemPreview at hpv
    rw [Option.map_eq_some'] at hpv
    obtain ⟨md, _, hpv⟩ := hpv
    rw [← hpv]
    exact html_first_paragraphs_length_le (render md) 3 800

/-- C8 witness: at the empty body with no description the slice and the
preview are produced and obey the bounds. -/
theorem c8_preview_bounds_witness :
    ([] : List Char).length ≤ 4000 ∧ ([] : List Char).length ≤ 800 :=
  ⟨(c8_preview_bounds id [] none).1 [] (by decide),
   (c8_preview_bounds id [] none).2.1 [] (by decide)⟩

/-! ### Claim C9 -/

/-- C9: in non-full-preview mode the Markdown source is the trimmed body
whenever it has at least `MIN_BODY_PREVIEW_CHARS = 80` characters or no
override description exists; only a short body together with a present
override description selects the override. -/
theorem c9_preview_source_selection (content : List Char)
    (descr : Option (List Char)) :
    MIN_BODY_PREVIEW_CHARS = 80 ∧
    ((80 ≤ (rustTrim content).length ∨ descr = none) →
      chooseSource content descr = rustTrim content) ∧
    (∀ d, (rustTrim content).length < 80 → descr = some d →
      chooseSource content descr = d) := by
  refine ⟨rfl, ?_, ?_⟩
  · intro h
    have hcond : MIN_BODY_PREVIEW_CHARS ≤ (rustTrim content).length ∨
        descr.isNone = true := by
      rcases h with h | h
      · exact Or.inl h
      · exact Or.inr (by simp [h])
    simp only [chooseSource]
    rw [if_pos hcond]
  · intro d hlt hd
    subst hd
    simp only [chooseSource]
    rw [if_neg]
    · rfl
    · rintro (hge | hnone)
      · rw [MIN_BODY_PREVIEW_CHARS] at hge
        omega
      · simp at hnone

/-- C10: `rss_to_json_feed` maps the items one to one; every JSON item's
id follows the guid-value, else link, else title preference order, its
url is the item link, its title and content_html are the item title and
description copied exactly; a channel with zero items yields zero items
(the function is total by construction). -/
theorem c10_json_feed_mapping (reDate : List Char → Option (List Char))
    (channel : Channel) (feedUrl nextUrl : Option (List Char)) :
    (rss_to_json_feed reDate channel feedUrl nextUrl).items.length
        = channel.items.length ∧
    (channel.items = [] →
      (rss_to_json_feed reDate channel feedUrl nextUrl).items = []) ∧
    (∀ i (hc : i < channel.items.length)
        (hj : i < (rss_to_json_feed reDate channel feedUrl nextUrl).items.length),
      (∀ g, channel.items[i].guid = some g →
        (rss_to_json_feed reDate channel feedUrl nextUrl).items[i].id
          = g.value) ∧
      (channel.items[i].guid = none →
        ∀ l, channel.items[i].link = some l →
        (rss_to_json_feed reDate channel feedUrl nextUrl).items[i].id = l) ∧
      (channel.items[i].guid = none → channel.items[i].link = none →
        ∀ t, channel.items[i].title = some t →
        (rss_to_json_feed reDate channel feedUrl nextUrl).items[i].id = t) ∧
      (rss_to_json_feed reDate channel feedUrl nextUrl).items[i].url
        = channel.items[i].link ∧
      (rss_to_json_feed reDate channel feedUrl nextUrl).items[i].title
        = channel.items[i].title ∧
      (rss_to_json_feed reDate channel feedUrl nextUrl).items[i].content_html
        = channel.items[i].description) := by
  refine ⟨by simp [rss_to_json_feed], ?_, ?_⟩
  · intro h
    simp [rss_to_json_feed, h]
  · intro i hc hj
    refine ⟨?_, ?_, ?_, ?_, ?_, ?_⟩
    · intro g hg
      simp [rss_to_json_feed, hg, Option.orElse]
    · intro hg l hl
      simp [rss_to_json_feed, hg, hl, Option.orElse]
    · intro hg hl t ht
      simp [rss_to_json_feed, hg, hl, ht, Option.orElse]
    · simp [rss_to_json_feed]
    · simp [rss_to_json_feed]
    · simp [rss_to_json_feed]

/-- C10 witness: on a channel with one guid-less item the id falls back
to the link, and titles are copied; a channel with no items maps to no
items. -/
theorem c10_json_feed_mapping_witness :
    (rss_to_json_feed (fun _ => none)
      { title := "t".toList, link := "l".toList, description := "d".toList,
        items := [], generator := none } none none).items = [] ∧
    ((rss_to_json_feed (fun _ => none)
      { title := "t".toList, link := "l".toList, description := "d".toList,
        items := [{ title := some "T".toList, link := some "L".toList,
                    description := none, guid := none, pubDate := none,
                    author := none }], generator := none } none none).items.get
      ⟨0, by decide⟩).id = "L".toList := by
  have hb : (0 : Nat) < (rss_to_json_feed (fun _ => none)
      { title := "t".toList, link := "l".toList, description := "d".toList,
        items := [{ title := some "T".toList, link := some "L".toList,
                    description := none, guid := none, pubDate := none,
                    author := none }], generator := none } none none).items.length := by
    decide
  constructor
  · exact (c10_json_feed_mapping (fun _ => none)
      { title := "t".toList, link := "l".toList, description := "d".toList,
        items := [], generator := none } none none).2.1 rfl
  · exact ((c10_json_feed_mapping (fun _ => none)
      { title := "t".toList, link := "l".toList, description := "d".toList,
        items := [{ title := some "T".toList, link := some "L".toList,
                    description := none, guid := none, pubDate := none,
                    author := none }], generator := none } none none).2.2
      0 (by decide) (by decide)).2.1 rfl "L".toList rfl

/-! ### Claim C4: sorting lemmas -/

theorem dateLe_total (a b : Option Int) :
    dateLe a b = true ∨ dateLe b a = true := by
  match a, b with
  | none, _ => exact Or.inl rfl
  | some x, none => exact Or.inr rfl
  | some x, some y =>
    simp only [dateLe, decide_eq_true_eq]
    omega

theorem dateLe_trans (a b c : Option Int) (h1 : dateLe a b = true)
    (h2 : dateLe b c = true) : dateLe a c = true := by
  match a, b, c with
  | none, _, _ => rfl
  | some x, none, _ => simp [dateLe] at h1
  | some x, some y, none => simp [dateLe] at h2
  | some x, some y, some z =>
    simp only [dateLe, decide_eq_true_eq] at h1 h2 ⊢
    omega

theorem dateLe_some_none (v : Int) : dateLe (some v) none = false := rfl

theorem dateLe_none_eq_none (a : Option Int) (h : dateLe a none = true) :
    a = none := by
  match a with
  | none => rfl
  | some v => simp [dateLe] at h

theorem isDateless_false (x : Article) (hx : x.fm.date ≠ none) :
    isDateless x = false := by
  match h : x.fm.date with
  | none => exact absurd h hx
  | some v => simp [isDateless, h]

theorem isDateless_true (x : Article) (hx : x.fm.date = none) :
    isDateless x = true := by
  simp [isDateless, hx]

theorem mem_insertByDate (x z : Article) :
    ∀ (l : List Article), z ∈ insertByDate x l ↔ z = x ∨ z ∈ l := by
  intro l
  induction l with
  | nil => simp [insertByDate]
  | cons y ys ih =>
    simp only [insertByDate]
    split
    · simp only [List.mem_cons, ih]
      try tauto
    · simp only [List.mem_cons]
      try tauto

theorem pairwise_insertByDate (x : Article) :
    ∀ (l : List Article), l.Pairwise artLe →
      (insertByDate x l).Pairwise artLe := by
  intro l
  induction l with
  | nil => intro _; simp [insertByDate]
  | cons y ys ih =>
    intro hl
    rw [List.pairwise_cons] at hl
    simp only [insertByDate]
    by_cases hcase : dateLe y.fm.date x.fm.date = true
    · rw [if_pos hcase, List.pairwise_cons]
      refine ⟨?_, ih hl.2⟩
      intro z hz
      rw [mem_insertByDate] at hz
      rcases hz with hz | hz
      · subst hz
        exact hcase
      · exact hl.1 z hz
    · rw [if_neg hcase, List.pairwise_cons]
      refine ⟨?_, List.pairwise_cons.mpr hl⟩
      intro z hz
      have hxy : artLe x y := by
        rcases dateLe_total y.fm.date x.fm.date with h | h
        · exact absurd h hcase
        · exact h
      rcases List.mem_cons.mp hz with hz | hz
      · subst hz; exact hxy
      · exact dateLe_trans _ _ _ hxy (hl.1 z hz)

theorem pairwise_sortByDate_aux :
    ∀ (l acc : List Article), acc.Pairwise artLe →
      (l.foldl (fun acc x => insertByDate x acc) acc).Pairwise artLe := by
  intro l
  induction l with
  | nil => intro acc h; exact h
  | cons x xs ih =>
    intro acc h
    exact ih (insertByDate x acc) (pairwise_insertByDate x acc h)

theorem pairwise_sortByDate (l : List Article) :
    (sortByDate l).Pairwise artLe :=
  pairwise_sortByDate_aux l [] (List.Pairwise.nil)

theorem filter_insertByDate_dated (x : Article) (hx : x.fm.date ≠ none) :
    ∀ (l : List Article),
      (insertByDate x l).filter isDateless = l.filter isDateless := by
  have hpx : isDateless x = false := isDateless_false x hx
  intro l
  induction l with
  | nil => simp [insertByDate, List.filter, hpx]
  | cons y ys ih =>
    simp only [insertByDate]
    split
    · simp only [List.filter_cons]
      rw [ih]
    · simp [List.filter_cons, hpx]

theorem filter_insertByDate_dateless (x : Article) (hx : x.fm.date = none) :
    ∀ (l : List Article), l.Pairwise artLe →
      (insertByDate x l).filter isDateless
        = l.filter isDateless ++ [x] := by
  have hpx : isDateless x = true := isDateless_true x hx
  intro l
  induction l with
  | nil => simp [insertByDate, List.filter, hpx]
  | cons y ys ih =>
    intro hl
    rw [List.pairwise_cons] at hl
    simp only [insertByDate]
    by_cases hcase : dateLe y.fm.date x.fm.date = true
    · rw [if_pos hcase]
      have hy : y.fm.date = none := by
        apply dateLe_none_eq_none
        rw [← hx]
        exact hcase
      have hpy : isDateless y = true := isDateless_true y hy
      simp [List.filter_cons, hpy, ih hl.2]
    · rw [if_neg hcase]
      have hy : y.fm.date ≠ none := by
        intro hcontra
        refine hcase ?_
        rw [hcontra, hx]
        rfl
      have hpy : isDateless y = false := isDateless_false y hy
      have hys : ys.filter isDateless = [] := by
        rw [List.filter_eq_nil_iff]
        intro z hz
        have hz2 := hl.1 z hz
        unfold artLe at hz2
        match hzd : z.fm.date with
        | none =>
          rw [hzd] at hz2
          match hyd : y.fm.date with
          | none => exact absurd hyd hy
          | some v => rw [hyd] at hz2; simp [dateLe] at hz2
        | some v => simp [isDateless, hzd]
      simp [List.filter_cons, hpx, hpy, hys]

theorem filter_sortByDate_aux :
    ∀ (l acc : List Article), acc.Pairwise artLe →
      (l.foldl (fun acc x => insertByDate x acc) acc).filter isDateless
        = acc.filter isDateless ++ l.filter isDateless := by
  intro l
  induction l with
  | nil => intro acc _; simp
  | cons x xs ih =>
    intro acc h
    simp only [List.foldl_cons]
    rw [ih (insertByDate x acc) (pairwise_insertByDate x acc h)]
    by_cases hx : x.fm.date = none
    · rw [filter_insertByDate_dateless x hx acc h]
      have hpx : isDateless x = true := isDateless_true x hx
      simp [List.filter_cons, hpx]
    · rw [filter_insertByDate_dated x hx acc]
      have hpx : isDateless x = false := isDateless_false x hx
      simp [List.filter_cons, hpx]

theorem filter_sortByDate (l : List Article) :
    (sortByDate l).filter isDateless = l.filter isDateless := by
  have h := filter_sortByDate_aux l [] List.Pairwise.nil
  simpa [sortByDate] using h

/-! ### Claim C4 -/

/-- C4 counterexample: the claim states the relative order of dateless
documents equals their traversal order.  For two dateless articles the
stable ascending sort keeps them in traversal order, and the final
`reverse` then swaps them, so the dateless subsequence of the output is
the reverse of the input's. -/
theorem c4_counterexample_dateless_order :
    (sort_articles [artNoDateA, artNoDateB]).filter isDateless ≠
      [artNoDateA, artNoDateB].filter isDateless := by
  decide

/-- C4 amended: in `collect_articles`' output, dated documents are
newest-first, every dateless document sits at or after every dated one,
and the relative order of the dateless documents is the *reverse* of
their traversal order (still deterministic). -/
theorem c4_sort_order (l : List Article) :
    (sort_articles l).Pairwise
      (fun x y => dateLe y.fm.date x.fm.date = true) ∧
    (∀ i j (hi : i < (sort_articles l).length)
        (hj : j < (sort_articles l).length), i ≤ j →
      (sort_articles l)[i].fm.date = none →
      (sort_articles l)[j].fm.date = none) ∧
    (sort_articles l).filter isDateless =
      (l.filter isDateless).reverse := by
  have hpair : (sort_articles l).Pairwise
      (fun x y => dateLe y.fm.date x.fm.date = true) := by
    unfold sort_articles
    rw [List.pairwise_reverse]
    exact pairwise_sortByDate l
  refine ⟨hpair, ?_, ?_⟩
  · intro i j hi hj hij hnone
    rcases Nat.lt_or_ge i j with hlt | hge
    · have h := (List.pairwise_iff_getElem.mp hpair) i j hi hj hlt
      rw [hnone] at h
      exact dateLe_none_eq_none _ h
    · have : i = j := by omega
      subst this
      exact hnone
  · unfold sort_articles
    rw [List.filter_reverse, filter_sortByDate]

/-- C4 witness: for two dateless articles, the second-walked article is
followed by the first (both dateless at the end, order reversed). -/
theorem c4_sort_order_witness :
    ((sort_articles [artNoDateA, artNoDateB]).get ⟨1, by decide⟩).fm.date
      = none ∧
    (sort_articles [artNoDateA, artNoDateB]).filter isDateless =
      ([artNoDateA, artNoDateB].filter isDateless).reverse :=
  ⟨(c4_sort_order [artNoDateA, artNoDateB]).2.1 0 1 (by decide) (by decide)
      (by omega) (by decide),
   (c4_sort_order [artNoDateA, artNoDateB]).2.2⟩

/-! ### Claim C5: suffix and replacement lemmas -/

theorem suffix_append_left (T pre l : List Char) (h : T <:+ l) :
    T <:+ pre ++ l := by
  obtain ⟨u, hu⟩ := h
  exact ⟨pre ++ u, by rw [List.append_assoc, hu]⟩

theorem suffix_of_suffix_append (T q t : List Char) (h : T <:+ q ++ t)
    (hlen : T.length ≤ t.length) : T <:+ t := by
  obtain ⟨u, hu⟩ := h
  have hul : u.length + T.length = q.length + t.length := by
    have h2 := congrArg List.length hu
    simpa using h2
  have h3 : (u ++ T).drop u.length = T := List.drop_left u T
  rw [hu] at h3
  have h4 : u.length = q.length + (u.length - q.length) := by omega
  rw [h4, List.drop_append] at h3
  rw [← h3]
  exact List.drop_suffix _ t

theorem suffix_split (T x t : List Char) (h : T <:+ x ++ t)
    (hlen : t.length ≤ T.length) :
    t = T.drop (T.length - t.length) ∧
    T.take (T.length - t.length) <:+ x := by
  obtain ⟨u, hu⟩ := h
  have hul : u.length + T.length = x.length + t.length := by
    have h2 := congrArg List.length hu
    simpa using h2
  have hux : u.length ≤ x.length := by omega
  have hT : T = x.drop u.length ++ t := by
    have h3 : (u ++ T).drop u.length = T := List.drop_left u T
    rw [hu] at h3
    rw [← h3, List.drop_append_of_le_length hux]
  have hxlen : (x.drop u.length).length = T.length - t.length := by
    rw [List.length_drop]
    omega
  constructor
  · have h5 : (x.drop u.length ++ t).drop ((x.drop u.length).length) = t :=
      List.drop_left _ _
    rw [hxlen] at h5
    rw [← hT] at h5
    exact h5.symm
  · have h6 : (x.drop u.length ++ t).take ((x.drop u.length).length)
        = x.drop u.length := List.take_left _ _
    rw [hxlen] at h6
    rw [← hT] at h6
    rw [h6]
    exact List.drop_suffix _ _

theorem rustReplaceNE_nil (p : Char) (ps rep : List Char) :
    rustReplaceNE p ps rep [] = [] := by
  simp [rustReplaceNE]

/-- Engine for the link-suffix lemmas: if the target suffix `Tp` is
produced both in the "`T` shorter than a pattern match" boundary cases
(`H1`) and on the input `T` itself when the pattern does not start it
(`H2`), then every string ending in `T` is replaced into a string ending
in `Tp`. -/
theorem replace_suffix_generic (q0 : Char) (qs rep T Tp : List Char)
    (hT : T ≠ [])
    (H1 : ∀ t : List Char, t.length < T.length → T <:+ (q0 :: qs) ++ t →
      Tp <:+ rep ++ rustReplaceNE q0 qs rep t)
    (H2 : ¬ (q0 :: qs).isPrefixOf T = true →
      Tp <:+ rustReplaceNE q0 qs rep T) :
    ∀ (n : Nat) (s : List Char), s.length ≤ n → T <:+ s →
      Tp <:+ rustReplaceNE q0 qs rep s := by
  intro n
  induction n using Nat.strong_induction_on with
  | _ n ih =>
    intro s hn hsuf
    match s with
    | [] => exact absurd (List.suffix_nil.mp hsuf) hT
    | c :: rest =>
      have hTle := hsuf.length_le
      have hpos : 0 < n := by
        simp only [List.length_cons] at hn
        omega
      by_cases hm : (q0 :: qs).isPrefixOf (c :: rest) = true
      · obtain ⟨t, htq⟩ := List.isPrefixOf_iff_prefix.mp hm
        have hdrop : rest.drop qs.length = t := by
          have h3 : ((q0 :: qs) ++ t).drop (q0 :: qs).length = t :=
            List.drop_left _ _
          rw [htq] at h3
          simp only [List.length_cons] at h3
          rw [List.drop_succ_cons] at h3
          exact h3
        simp only [rustReplaceNE, if_pos hm, hdrop]
        by_cases hlt : t.length < T.length
        · exact H1 t hlt (htq ▸ hsuf)
        · push_neg at hlt
          have hsuf_t : T <:+ t :=
            suffix_of_suffix_append T (q0 :: qs) t (by rw [htq]; exact hsuf)
              hlt
          have hlen_t : t.length ≤ n - 1 := by
            have h4 := congrArg List.length htq
            simp only [List.length_append, List.length_cons] at h4 hn
            omega
          exact suffix_append_left Tp rep _
            (ih (n - 1) (by omega) t hlen_t hsuf_t)
      · by_cases hTs : T.length = (c :: rest).length
        · have hTeq : T = c :: rest := hsuf.eq_of_length hTs
          rw [← hTeq]
          exact H2 (by rw [hTeq]; exact hm)
        · have hsuf_rest : T <:+ rest := by
            apply suffix_of_suffix_append T [c] rest (by simpa using hsuf)
            simp only [List.length_cons] at hTle hTs
            omega
          have hlen_rest : rest.length ≤ n - 1 := by
            simp only [List.length_cons] at hn
            omega
          have hrec := ih (n - 1) (by omega) rest hlen_rest hsuf_rest
          simp only [rustReplaceNE, if_neg hm]
          exact suffix_append_left Tp [c] _ hrec

theorem replace_md_suffix_html (s : List Char) (h : ".md".toList <:+ s) :
    ".html".toList <:+
      rustReplaceNE '.' "md".toList ".html".toList s := by
  refine replace_suffix_generic '.' "md".toList ".html".toList
    ".md".toList ".html".toList (by decide) ?_ ?_ s.length s (Nat.le_refl _) h
  · intro t hlt hsuf
    obtain ⟨ht, hx⟩ := suffix_split _ _ _ hsuf (by omega)
    have hTlen : ((".md".toList : List Char)).length = 3 := rfl
    rw [hTlen] at hlt
    have h3 : t.length = 0 ∨ t.length = 1 ∨ t.length = 2 := by omega
    rcases h3 with h3 | h3 | h3
    · have ht0 : t = [] := List.eq_nil_of_length_eq_zero h3
      subst ht0
      rw [rustReplaceNE_nil]
      decide
    · rw [h3] at hx
      exact absurd hx (by decide)
    · rw [h3] at hx
      exact absurd hx (by decide)
  · intro hm
    exact absurd (by decide) hm

theorem replace_md_suffix_readme (s : List Char)
    (h : "/README.md".toList <:+ s) :
    "/README.html".toList <:+
      rustReplaceNE '.' "md".toList ".html".toList s := by
  refine replace_suffix_generic '.' "md".toList ".html".toList
    "/README.md".toList "/README.html".toList (by decide) ?_ ?_
    s.length s (Nat.le_refl _) h
  · intro t hlt hsuf
    obtain ⟨ht, hx⟩ := suffix_split _ _ _ hsuf (by omega)
    have hxlen := hx.length_le
    have hTlen : (("/README.md".toList : List Char)).length = 10 := rfl
    have hqlen : (('.' :: "md".toList) : List Char).length = 3 := rfl
    rw [List.length_take, hTlen] at hxlen
    rw [hqlen] at hxlen
    rw [hTlen] at hlt
    have h3 : t.length = 7 ∨ t.length = 8 ∨ t.length = 9 := by omega
    rcases h3 with h3 | h3 | h3 <;> rw [h3] at hx <;>
      exact absurd hx (by decide)
  · intro _
    have heval : rustReplaceNE '.' "md".toList ".html".toList
        "/README.md".toList = "/README.html".toList := by
      rw [← rustReplaceNE_eq_fuel '.' "md".toList ".html".toList
        ("/README.md".toList).length "/README.md".toList (Nat.le_refl _)]
      decide
    rw [heval]

theorem replace_readme_suffix_index (s : List Char)
    (h : "/README.html".toList <:+ s) :
    "/index.html".toList <:+
      rustReplaceNE '/' "README.html".toList "/index.html".toList s := by
  refine replace_suffix_generic '/' "README.html".toList "/index.html".toList
    "/README.html".toList "/index.html".toList (by decide) ?_ ?_
    s.length s (Nat.le_refl _) h
  · intro t hlt hsuf
    obtain ⟨ht, hx⟩ := suffix_split _ _ _ hsuf (by omega)
    have hTlen : (("/README.html".toList : List Char)).length = 12 := rfl
    rw [hTlen] at hlt
    by_cases h0 : t.length = 0
    · have ht0 : t = [] := List.eq_nil_of_length_eq_zero h0
      subst ht0
      rw [rustReplaceNE_nil]
      decide
    · have h3 : t.length = 1 ∨ t.length = 2 ∨ t.length = 3 ∨
          t.length = 4 ∨ t.length = 5 ∨ t.length = 6 ∨ t.length = 7 ∨
          t.length = 8 ∨ t.length = 9 ∨ t.length = 10 ∨ t.length = 11 := by
        omega
      rcases h3 with h3 | h3 | h3 | h3 | h3 | h3 | h3 | h3 | h3 | h3 | h3 <;>
        rw [h3] at hx <;> exact absurd hx (by decide)
  · intro hm
    exact absurd (by decide) hm

theorem replace_html_suffix_kept (s : List Char)
    (h : ".html".toList <:+ s) :
    ".html".toList <:+
      rustReplaceNE '/' "README.html".toList "/index.html".toList s := by
  refine replace_suffix_generic '/' "README.html".toList "/index.html".toList
    ".html".toList ".html".toList (by decide) ?_ ?_
    s.length s (Nat.le_refl _) h
  · intro t hlt hsuf
    obtain ⟨ht, hx⟩ := suffix_split _ _ _ hsuf (by omega)
    have hTlen : ((".html".toList : List Char)).length = 5 := rfl
    rw [hTlen] at hlt
    by_cases h0 : t.length = 0
    · have ht0 : t = [] := List.eq_nil_of_length_eq_zero h0
      subst ht0
      rw [rustReplaceNE_nil]
      decide
    · have h3 : t.length = 1 ∨ t.length = 2 ∨ t.length = 3 ∨
          t.length = 4 := by omega
      rcases h3 with h3 | h3 | h3 | h3 <;>
        rw [h3] at hx <;> exact absurd hx (by decide)
  · intro _
    have heval : rustReplaceNE '/' "README.html".toList "/index.html".toList
        ".html".toList = ".html".toList := by
      rw [← rustReplaceNE_eq_fuel '/' "README.html".toList
        "/index.html".toList (".html".toList).length ".html".toList
        (Nat.le_refl _)]
      decide
    rw [heval]

theorem rustReplaceNE_backslash (s : List Char) :
    rustReplaceNE '\\' [] "/".toList s
      = s.map (fun c => if c = '\\' then '/' else c) := by
  induction s with
  | nil => simp [rustReplaceNE]
  | cons c rest ih =>
    simp only [rustReplaceNE]
    by_cases hc : c = '\\'
    · rw [if_pos (by subst hc; simp [List.isPrefixOf])]
      simp only [List.length_nil, List.drop_zero]
      rw [ih]
      simp [hc]
    · rw [if_neg (by simp only [List.isPrefixOf, Bool.and_eq_true,
        beq_iff_eq, List.isPrefixOf.eq_1, and_true]; exact fun hcc => hc hcc.symm)]
      rw [ih]
      simp [hc]

theorem mem_rustReplaceNE (p : Char) (ps rep : List Char) :
    ∀ (n : Nat) (s : List Char), s.length ≤ n → ∀ z,
      z ∈ rustReplaceNE p ps rep s → z ∈ rep ∨ z ∈ s := by
  intro n
  induction n using Nat.strong_induction_on with
  | _ n ih =>
    intro s hn z hz
    match s with
    | [] => rw [rustReplaceNE_nil] at hz; simp at hz
    | c :: rest =>
      have hpos : 0 < n := by
        simp only [List.length_cons] at hn
        omega
      simp only [rustReplaceNE] at hz
      by_cases hm : (p :: ps).isPrefixOf (c :: rest) = true
      · rw [if_pos hm] at hz
        rcases List.mem_append.mp hz with hz | hz
        · exact Or.inl hz
        · rcases ih (n - 1) (by omega) (rest.drop ps.length)
            (by rw [List.length_drop]; simp only [List.length_cons] at hn; omega)
            z hz with h | h
          · exact Or.inl h
          · exact Or.inr (List.mem_cons_of_mem c (List.mem_of_mem_drop h))
      · rw [if_neg hm] at hz
        rcases List.mem_cons.mp hz with hz | hz
        · exact Or.inr (by simp [hz])
        · rcases ih (n - 1) (by omega) rest
            (by simp only [List.length_cons] at hn; omega) z hz with h | h
          · exact Or.inl h
          · exact Or.inr (List.mem_cons_of_mem c h)

theorem htmlPath_unfold (p : List Char) :
    htmlPath p = rustReplaceNE '/' "README.html".toList "/index.html".toList
      (rustReplaceNE '.' "md".toList ".html".toList
        (rustReplaceNE '\\' [] "/".toList p)) := rfl

theorem backslash_not_mem_htmlPath (p : List Char) : '\\' ∉ htmlPath p := by
  rw [htmlPath_unfold]
  intro hmem
  have h1 := mem_rustReplaceNE '/' "README.html".toList "/index.html".toList
    _ _ (Nat.le_refl _) '\\' hmem
  rcases h1 with h1 | h1
  · exact absurd h1 (by decide)
  · have h2 := mem_rustReplaceNE '.' "md".toList ".html".toList
      _ _ (Nat.le_refl _) '\\' h1
    rcases h2 with h2 | h2
    · exact absurd h2 (by decide)
    · rw [rustReplaceNE_backslash] at h2
      rw [List.mem_map] at h2
      obtain ⟨a, _, ha⟩ := h2
      by_cases hab : a = '\\' <;> simp [hab] at ha

theorem backslash_suffix_kept (p T : List Char) (hT : '\\' ∉ T)
    (h : T <:+ p) : T <:+ rustReplaceNE '\\' [] "/".toList p := by
  rw [rustReplaceNE_backslash]
  obtain ⟨u, hu⟩ := h
  have hmapT : T.map (fun c => if c = '\\' then '/' else c) = T := by
    have h1 : ∀ x ∈ T, (if x = '\\' then '/' else x) = id x := by
      intro x hx
      have hne : x ≠ '\\' := fun hcc => hT (hcc ▸ hx)
      simp [hne]
    rw [List.map_congr_left h1, List.map_id]
  refine ⟨u.map (fun c => if c = '\\' then '/' else c), ?_⟩
  rw [← hmapT, ← List.map_append, hu]

/-! ### Claim C5 -/

/-- C5 counterexample: the claim states every collected document's link
ends in an HTML extension.  `collect_articles` accepts `.markdown`
files, but the link rewriting only replaces the literal `.md`, which
does not occur in `notes.markdown`, so the link keeps the raw Markdown
extension. -/
theorem c5_counterexample_markdown_extension :
    feedLink "https://x".toList "notes.markdown".toList
      = "https://x/notes.markdown".toList ∧
    ¬ (".html".toList <:+ "https://x/notes.markdown".toList) := by
  constructor
  · show trimEndSlashes "https://x".toList ++ '/' :: htmlPath
      "notes.markdown".toList = "https://x/notes.markdown".toList
    rw [htmlPath_unfold, rustReplaceNE_backslash]
    have e1 : ("notes.markdown".toList).map
        (fun c => if c = '\\' then '/' else c) = "notes.markdown".toList := by
      decide
    rw [e1]
    have e2 : rustReplaceNE '.' "md".toList ".html".toList
        "notes.markdown".toList = "notes.markdown".toList := by
      rw [← rustReplaceNE_eq_fuel '.' "md".toList ".html".toList
        ("notes.markdown".toList).length "notes.markdown".toList
        (Nat.le_refl _)]
      decide
    rw [e2]
    have e3 : rustReplaceNE '/' "README.html".toList "/index.html".toList
        "notes.markdown".toList = "notes.markdown".toList := by
      rw [← rustReplaceNE_eq_fuel '/' "README.html".toList
        "/index.html".toList ("notes.markdown".toList).length
        "notes.markdown".toList (Nat.le_refl _)]
      decide
    rw [e3]
    decide
  · decide

/-- C5 amended: the link never contains a backslash provided the
configured base URL contains none; a relative path ending in the literal
lowercase `.md` yields a link ending in `.html`; and a path ending in
`/README.md` yields a link ending in `/index.html`.  Documents with a
`.markdown` or uppercase extension keep their Markdown extension in the
link (counterexample), and a top-level `README.md` maps to
`README.html`, not to an index page. -/
theorem c5_link_properties (siteUrl p : List Char) :
    (('\\' ∉ siteUrl) → '\\' ∉ feedLink siteUrl p) ∧
    (".md".toList <:+ p → ".html".toList <:+ feedLink siteUrl p) ∧
    ("/README.md".toList <:+ p →
      "/index.html".toList <:+ feedLink siteUrl p) := by
  refine ⟨?_, ?_, ?_⟩
  · intro hbase hmem
    unfold feedLink trimEndSlashes at hmem
    rcases List.mem_append.mp hmem with hmem | hmem
    · apply hbase
      have h1 := List.mem_reverse.mp hmem
      have h2 := (List.dropWhile_sublist _).subset h1
      exact List.mem_reverse.mp h2
    · rcases List.mem_cons.mp hmem with hmem | hmem
      · exact absurd hmem (by decide)
      · exact backslash_not_mem_htmlPath p hmem
  · intro hsuf
    have h1 : ".md".toList <:+ rustReplaceNE '\\' [] "/".toList p :=
      backslash_suffix_kept p _ (by decide) hsuf
    have h2 := replace_md_suffix_html _ h1
    have h3 := replace_html_suffix_kept _ h2
    rw [← htmlPath_unfold] at h3
    unfold feedLink
    exact suffix_append_left _ _ _ (suffix_append_left _ ['/'] _ h3)
  · intro hsuf
    have h1 : "/README.md".toList <:+ rustReplaceNE '\\' [] "/".toList p :=
      backslash_suffix_kept p _ (by decide) hsuf
    have h2 := replace_md_suffix_readme _ h1
    have h3 := replace_readme_suffix_index _ h2
    rw [← htmlPath_unfold] at h3
    unfold feedLink
    exact suffix_append_left _ _ _ (suffix_append_left _ ['/'] _ h3)

/-- C5 witness: a chapter at `guide/README.md` gets a link with no
backslash ending in `/index.html` (hence in `.html`). -/
theorem c5_link_properties_witness :
    ('\\' ∉ feedLink "https://x".toList "guide/README.md".toList) ∧
    ".html".toList <:+ feedLink "https://x".toList "guide/README.md".toList ∧
    "/index.html".toList <:+
      feedLink "https://x".toList "guide/README.md".toList :=
  ⟨(c5_link_properties "https://x".toList "guide/README.md".toList).1
      (by decide),
   (c5_link_properties "https://x".toList "guide/README.md".toList).2.1
      (by decide),
   (c5_link_properties "https://x".toList "guide/README.md".toList).2.2
      (by decide)⟩

/-! ### Claim C6: pagination lemmas -/

theorem divCeil_zero (p : Nat) (hp : 0 < p) : divCeil 0 p = 0 := by
  unfold divCeil
  apply Nat.div_eq_of_lt
  omega

theorem divCeil_eq_one (n p : Nat) (hn : 0 < n) (hnp : n ≤ p) :
    divCeil n p = 1 := by
  unfold divCeil
  apply Nat.div_eq_of_lt_le
  · omega
  · omega

theorem divCeil_succ (n p : Nat) (hp : 0 < p) (hn : 0 < n) :
    divCeil n p = divCeil (n - p) p + 1 := by
  unfold divCeil
  have h1 : n + p - 1 = (n - 1) + p := by omega
  rw [h1, Nat.add_div_right _ hp]
  by_cases hc : p < n
  · have h2 : n - p + p - 1 = (n - p - 1) + p := by omega
    have h3 : n - 1 = (n - p - 1) + p := by omega
    rw [h2, Nat.add_div_right _ hp, h3, Nat.add_div_right _ hp]
  · have h2 : n - p = 0 := by omega
    rw [h2]
    have h3 : (n - 1) / p = 0 := Nat.div_eq_of_lt (by omega)
    have h4 : (0 + p - 1) / p = 0 := Nat.div_eq_of_lt (by omega)
    omega

theorem chunks_flatten {α : Type} :
    ∀ (n : Nat) (l : List α) (p : Nat), l.length ≤ n → 0 < p →
      ((List.range (divCeil l.length p)).map
        (fun i => (l.drop (i * p)).take p)).flatten = l := by
  intro n
  induction n with
  | zero =>
    intro l p hl hp
    have hnil : l = [] := List.eq_nil_of_length_eq_zero (Nat.le_zero.mp hl)
    subst hnil
    simp [divCeil_zero p hp]
  | succ n ih =>
    intro l p hl hp
    match l with
    | [] => simp [divCeil_zero p hp]
    | a :: l' =>
      have hlen : 0 < (a :: l').length := by simp
      rw [divCeil_succ _ p hp hlen, List.range_succ_eq_map]
      rw [List.map_cons, List.flatten_cons, Nat.zero_mul, List.drop_zero,
        List.map_map]
      have hfun : ((List.range (divCeil ((a :: l').length - p) p)).map
          ((fun i => ((a :: l').drop (i * p)).take p) ∘ Nat.succ))
          = (List.range (divCeil (((a :: l').drop p).length) p)).map
            (fun i => (((a :: l').drop p).drop (i * p)).take p) := by
        rw [List.length_drop]
        apply List.map_congr_left
        intro i _
        simp only [Function.comp]
        rw [List.drop_drop]
        congr 1
        simp only [Nat.succ_eq_add_one]
        ring_nf
      rw [hfun, ih ((a :: l').drop p) p (by
        rw [List.length_drop]
        simp only [List.length_cons] at hl ⊢
        omega) hp]
      exact List.take_append_drop p (a :: l')

/-! ### Claim C6 -/

/-- C6 counterexample: the claim states the paginated build yields
exactly `ceil(N/P)` pages for every entry list.  With pagination on,
`P = 2` and zero entries, the code emits one `rss.xml` page while
`ceil(0/2) = 0`. -/
theorem c6_counterexample_zero_entries :
    (build_feed_pages "t".toList "u".toList "d".toList [] 2 true).length
      ≠ divCeil ([] : List RssItem).length 2 ∧
    (build_feed_pages "t".toList "u".toList "d".toList [] 2 true).length = 1 ∧
    divCeil ([] : List RssItem).length 2 = 0 := by
  refine ⟨by decide, by decide, by decide⟩

/-- C6 amended: for every *non-empty* entry list and page size `P > 0`
with pagination enabled, `build_feed` yields exactly `ceil(N/P)` pages;
page `i` holds exactly the entries of the slice
`[i*P, min((i+1)*P, N))`; concatenating the pages reproduces the entry
order; pages are named `rss.xml`, then `rss2.xml`, `rss3.xml`, ...
(a zero-entry list instead yields one page, see C7). -/
theorem c6_pagination (title siteUrl descr : List Char)
    (items : List RssItem) (maxItems : Nat)
    (hP : 0 < maxItems) (hN : items ≠ []) :
    (build_feed_pages title siteUrl descr items maxItems true).length
      = divCeil items.length maxItems ∧
    (∀ i (h : i <
        (build_feed_pages title siteUrl descr items maxItems true).length),
      ((build_feed_pages title siteUrl descr items maxItems true).get
        ⟨i, h⟩).channel.items = (items.drop (i * maxItems)).take maxItems) ∧
    ((build_feed_pages title siteUrl descr items maxItems true).map
      (fun page => page.channel.items)).flatten = items ∧
    (∀ i (h : i <
        (build_feed_pages title siteUrl descr items maxItems true).length),
      ((build_feed_pages title siteUrl descr items maxItems true).get
        ⟨i, h⟩).filename =
        if i = 0 then "rss.xml".toList
        else "rss".toList ++ Nat.toDigits 10 (i + 1) ++ ".xml".toList) := by
  have hN' : 0 < items.length := List.length_pos.mpr hN
  by_cases hfit : items.length ≤ maxItems
  · have hb : build_feed_pages title siteUrl descr items maxItems true =
        [{ filename := "rss.xml".toList,
           channel := buildChannelForSlice title siteUrl descr items }] := by
      unfold build_feed_pages
      rw [if_pos (Or.inr (Or.inr hfit))]
    rw [hb]
    refine ⟨?_, ?_, ?_, ?_⟩
    · simp [divCeil_eq_one items.length maxItems hN' hfit]
    · intro i h
      simp only [List.length_singleton] at h
      have hi : i = 0 := by omega
      subst hi
      simp only [List.get_cons_zero, Nat.zero_mul, List.drop_zero]
      rw [List.take_of_length_le hfit]
      rfl
    · simp [buildChannelForSlice]
    · intro i h
      simp only [List.length_singleton] at h
      have hi : i = 0 := by omega
      subst hi
      rfl
  · have hb : build_feed_pages title siteUrl descr items maxItems true =
        (List.range (divCeil items.length maxItems)).map (fun pageIdx =>
          { filename := if pageIdx = 0 then "rss.xml".toList
              else "rss".toList ++ Nat.toDigits 10 (pageIdx + 1)
                ++ ".xml".toList,
            channel := buildChannelForSlice title siteUrl descr
              ((items.drop (pageIdx * maxItems)).take maxItems) }) := by
      unfold build_feed_pages
      rw [if_neg]
      rintro (hc | hc | hc)
      · exact Bool.noConfusion hc
      · omega
      · exact hfit hc
    rw [hb]
    refine ⟨by simp, ?_, ?_, ?_⟩
    · intro i h
      simp only [List.length_map, List.length_range] at h
      simp [List.get_eq_getElem, List.getElem_map, List.getElem_range,
        buildChannelForSlice]
    · rw [List.map_map]
      exact chunks_flatten items.length items maxItems (Nat.le_refl _) hP
    · intro i h
      simp only [List.length_map, List.length_range] at h
      simp [List.get_eq_getElem, List.getElem_map, List.getElem_range]

/-- C6 witness: five entries at two per page yield three pages, the
third being named rss3.xml with the last entry. -/
theorem c6_pagination_witness :
    (build_feed_pages "t".toList "u".toList "d".toList
      (List.replicate 5 emptyItem) 2 true).length = 3 ∧
    ((build_feed_pages "t".toList "u".toList "d".toList
      (List.replicate 5 emptyItem) 2 true).get ⟨2, by decide⟩).filename
      = "rss3.xml".toList := by
  have h := c6_pagination "t".toList "u".toList "d".toList
    (List.replicate 5 emptyItem) 2 (by decide) (by decide)
  refine ⟨?_, ?_⟩
  · rw [h.1]
    decide
  · rw [h.2.2.2 2 (by decide)]
    decide

/-- C9 witness: a 3-character body with an override description selects
the override; the same body without an override keeps the body. -/
theorem c9_preview_source_selection_witness :
    chooseSource "abc".toList (some "d".toList) = "d".toList ∧
    chooseSource "abc".toList none = rustTrim "abc".toList :=
  ⟨(c9_preview_source_selection "abc".toList (some "d".toList)).2.2
      "d".toList (by decide) rfl,
   (c9_preview_source_selection "abc".toList none).2.1 (Or.inr rfl)⟩

end MdbookRssFeed
